import Mathlib

/-!
# Verification of `finale/black_scholes.py`

A shallow embedding, over the real numbers, of the Black-Scholes pricing
kernel, the implied-volatility solver, and the autodiff greeks defined in
`src/finale/black_scholes.py`, together with proofs of the specification's
claims about them.

Conventions of the embedding:
* machine floats are modelled by `ℝ`; `jnp.log`, `jnp.exp`, `jnp.sqrt` by
  `Real.log`, `Real.exp`, `Real.sqrt`;
* `jax.scipy.stats.norm.cdf` is the standard normal CDF, embedded as the
  integral of the standard normal density over `Set.Iic x`;
* `jax.lax.cond (mode == 0) call put` is a branch on `mode = 0`;
* `scipy.optimize.brentq` is third-party code, modelled from its contract as
  described in the spec (§4.2): exact bracketed root finding that fails when
  the objective has the same sign at both bracket endpoints;
* `jax.jacfwd f i` (forward-mode differentiation in argument `i`) is `deriv`
  in that argument;
* Lean's division-by-zero convention (`x / 0 = 0`) stands in for the IEEE
  `inf`/`nan` junk values that the Python code produces on the degenerate
  inputs `σ = 0`, `T = 0` (the code performs no validation; no claim below
  depends on which junk value appears, only on whether evaluation happens).
-/

open Real MeasureTheory Set Filter Topology intervalIntegral

open scoped Classical

set_option linter.unusedVariables false

noncomputable section

namespace Finale

/-- The standard normal probability density function, the integrand of
`jax.scipy.stats.norm.cdf`. -/
def normPdf (x : ℝ) : ℝ := Real.exp (-x ^ 2 / 2) / Real.sqrt (2 * π)

/-- `jax.scipy.stats.norm.cdf`: the standard normal cumulative distribution
function `Φ x = ∫_{-∞}^x normPdf`. -/
def normCdf (x : ℝ) : ℝ := ∫ t in Iic x, normPdf t

/-- The intermediate `d1` of `black_scholes`:
`d1 = (jnp.log(S / K) + (r + σ**2 / 2) * T) / (σ * jnp.sqrt(T))`. -/
def bs_d1 (σ S K T r : ℝ) : ℝ :=
  (Real.log (S / K) + (r + σ ^ 2 / 2) * T) / (σ * Real.sqrt T)

/-- The intermediate `d2` of `black_scholes`: `d2 = d1 - σ * jnp.sqrt(T)`. -/
def bs_d2 (σ S K T r : ℝ) : ℝ := bs_d1 σ S K T r - σ * Real.sqrt T

/-- The call branch of `black_scholes`:
`call = norm.cdf(d1) * S - norm.cdf(d2) * K * jnp.exp(-r * T)`. -/
def bs_call (σ S K T r : ℝ) : ℝ :=
  normCdf (bs_d1 σ S K T r) * S - normCdf (bs_d2 σ S K T r) * K * Real.exp (-r * T)

/-- `black_scholes(σ, S, K, T, r, mode)`: the pricing kernel.  The premium is
`jax.lax.cond(mode == 0, call, K * jnp.exp(-r * T) - S + call)`: the call
branch exactly when `mode = 0`, the parity-derived put branch otherwise. -/
def black_scholes (σ S K T r : ℝ) (mode : ℤ) : ℝ :=
  if mode = 0 then bs_call σ S K T r
  else K * Real.exp (-r * T) - S + bs_call σ S K T r

/-- Failure modes of the root finder (the spec's ConvergenceError). -/
inductive SolverError where
  | noSignChange
  | noConvergence

/-- Modelled from the spec (§4.2, §7) and the documented scipy contract:
`scipy.optimize.brentq(f, a, b)` is third-party code, not part of this
repository.  It raises (here: returns `.error .noSignChange`) when `f a` and
`f b` have the same strict sign, and otherwise converges to a root of `f`
inside `[a, b]` — exact in this idealised real-number model. -/
def brentq (f : ℝ → ℝ) (a b : ℝ) : Except SolverError ℝ :=
  if 0 < f a * f b then .error .noSignChange
  else if h : ∃ x, x ∈ Icc a b ∧ f x = 0 then .ok h.choose
  else .error .noConvergence

/-- Python's `round(x, 5)`.  (At exact ties Python rounds half to even while
`round` rounds half up; no claim below depends on a tie.) -/
def round5 (x : ℝ) : ℝ := (round (x * 100000) : ℤ) / 100000

/-- `implied_vol(P, S, K, T, r, mode)`:
`round(optimize.brentq(lambda σ: black_scholes(σ, S, K, T, r, mode) - P, 0., 10.), 5)`. -/
def implied_vol (P S K T r : ℝ) (mode : ℤ) : Except SolverError ℝ :=
  (brentq (fun σ => black_scholes σ S K T r mode - P) 0 10).map round5

/-- `bs_delta = jax.jacfwd(black_scholes, 1)`: derivative in the underlying
price `S`. -/
def bs_delta (σ S K T r : ℝ) (mode : ℤ) : ℝ :=
  deriv (fun s => black_scholes σ s K T r mode) S

/-- `bs_gamma = jax.jacfwd(bs_delta, 1)`: second derivative in the underlying
price `S`. -/
def bs_gamma (σ S K T r : ℝ) (mode : ℤ) : ℝ :=
  deriv (fun s => bs_delta σ s K T r mode) S

/-! ## Analytic facts about the normal density and CDF -/

theorem normPdf_pos (x : ℝ) : 0 < normPdf x := by
  apply div_pos (exp_pos _)
  apply Real.sqrt_pos.mpr
  positivity

theorem normPdf_eq (x : ℝ) : normPdf x = Real.exp (-(1 / 2) * x ^ 2) / Real.sqrt (2 * π) := by
  unfold normPdf
  ring_nf

theorem continuous_normPdf : Continuous normPdf := by
  unfold normPdf
  fun_prop

theorem integrable_normPdf : Integrable normPdf := by
  have h : Integrable (fun x : ℝ => Real.exp (-(1 / 2) * x ^ 2)) :=
    integrable_exp_neg_mul_sq (by norm_num)
  have he : normPdf = fun x => Real.exp (-(1 / 2) * x ^ 2) / Real.sqrt (2 * π) :=
    funext normPdf_eq
  rw [he]
  exact h.div_const _

theorem sqrt_two_pi_pos : 0 < Real.sqrt (2 * π) := by
  apply Real.sqrt_pos.mpr
  positivity

theorem integral_normPdf : ∫ x, normPdf x = 1 := by
  have h : ∫ x : ℝ, Real.exp (-(1 / 2) * x ^ 2) = Real.sqrt (2 * π) := by
    rw [integral_gaussian]
    congr 1
    ring
  calc ∫ x, normPdf x
      = (∫ x : ℝ, Real.exp (-(1 / 2) * x ^ 2)) / Real.sqrt (2 * π) := by
        rw [← MeasureTheory.integral_div]
        exact integral_congr_ae (Eventually.of_forall fun x => normPdf_eq x)
    _ = 1 := by
        rw [h]
        exact div_self (ne_of_gt sqrt_two_pi_pos)

theorem normCdf_nonneg (x : ℝ) : 0 ≤ normCdf x :=
  setIntegral_nonneg measurableSet_Iic fun t _ => (normPdf_pos t).le

theorem normCdf_le_one (x : ℝ) : normCdf x ≤ 1 := by
  rw [← integral_normPdf]
  exact setIntegral_le_integral integrable_normPdf
    (Eventually.of_forall fun t => (normPdf_pos t).le)

theorem normCdf_sub (a b : ℝ) : normCdf b - normCdf a = ∫ t in a..b, normPdf t :=
  integral_Iic_sub_Iic integrable_normPdf.integrableOn integrable_normPdf.integrableOn

theorem normCdf_strictMono : StrictMono normCdf := by
  intro a b hab
  have h := normCdf_sub a b
  have hpos : 0 < ∫ t in a..b, normPdf t :=
    intervalIntegral_pos_of_pos (continuous_normPdf.intervalIntegrable a b) normPdf_pos hab
  linarith

theorem normCdf_mono : Monotone normCdf := normCdf_strictMono.monotone

theorem normCdf_zero : normCdf 0 = 1 / 2 := by
  have hIoi : ∫ t in Ioi (0 : ℝ), normPdf t = 1 / 2 := by
    have h : ∫ t in Ioi (0 : ℝ), Real.exp (-(1 / 2) * t ^ 2) = Real.sqrt (π / (1 / 2)) / 2 :=
      integral_gaussian_Ioi (1 / 2)
    have h2 : Real.sqrt (π / (1 / 2)) = Real.sqrt (2 * π) := by
      congr 1
      ring
    calc ∫ t in Ioi (0 : ℝ), normPdf t
        = (∫ t in Ioi (0 : ℝ), Real.exp (-(1 / 2) * t ^ 2)) / Real.sqrt (2 * π) := by
          rw [← MeasureTheory.integral_div]
          exact integral_congr_ae (Eventually.of_forall fun x => normPdf_eq x)
      _ = 1 / 2 := by
          rw [h, h2, div_div]
          rw [div_eq_iff (by positivity)]
          ring
  have htot := integral_normPdf
  have hsplit : normCdf 0 + ∫ t in Ioi (0 : ℝ), normPdf t = ∫ x, normPdf x :=
    integral_Iic_add_Ioi integrable_normPdf.integrableOn integrable_normPdf.integrableOn
  rw [htot, hIoi] at hsplit
  linarith

theorem hasDerivAt_normCdf (x : ℝ) : HasDerivAt normCdf (normPdf x) x := by
  have key : normCdf = fun u => normCdf 0 + ∫ t in (0 : ℝ)..u, normPdf t := by
    funext u
    have h := normCdf_sub 0 u
    linarith
  rw [key]
  apply HasDerivAt.const_add
  exact integral_hasDerivAt_right
    (continuous_normPdf.intervalIntegrable 0 x)
    (continuous_normPdf.stronglyMeasurableAtFilter volume (𝓝 x))
    continuous_normPdf.continuousAt

theorem continuous_normCdf : Continuous normCdf := by
  apply continuous_iff_continuousAt.mpr
  intro x
  exact (hasDerivAt_normCdf x).continuousAt

/-! ## The derivative of the call premium in σ (vega) -/

/-- The Black-Scholes density identity `K·e^(−rT)·φ(d2) = S·φ(d1)`. -/
theorem normPdf_identity (σ S K T r : ℝ)
    (hσ : 0 < σ) (hS : 0 < S) (hK : 0 < K) (hT : 0 < T) :
    K * Real.exp (-r * T) * normPdf (bs_d2 σ S K T r) =
      S * normPdf (bs_d1 σ S K T r) := by
  have hst : (0 : ℝ) < Real.sqrt T := Real.sqrt_pos.mpr hT
  have ha : (0 : ℝ) < σ * Real.sqrt T := mul_pos hσ hst
  have hsq : Real.sqrt T ^ 2 = T := Real.sq_sqrt hT.le
  have hd1a : bs_d1 σ S K T r * (σ * Real.sqrt T) =
      Real.log (S / K) + (r + σ ^ 2 / 2) * T :=
    div_mul_cancel₀ _ (ne_of_gt ha)
  have hexp : Real.exp (-bs_d2 σ S K T r ^ 2 / 2) =
      Real.exp (-bs_d1 σ S K T r ^ 2 / 2) * (S / K) * Real.exp (r * T) := by
    rw [← Real.exp_log (div_pos hS hK), ← Real.exp_add, ← Real.exp_add]
    congr 1
    unfold bs_d2
    linear_combination hd1a - (σ ^ 2 / 2) * hsq
  unfold normPdf
  rw [hexp, show -r * T = -(r * T) by ring, Real.exp_neg]
  have hE : Real.exp (r * T) ≠ 0 := Real.exp_ne_zero _
  field_simp
  ring

/-- The call premium, as a function of σ, has derivative `S·φ(d1)·√T`
(the Black-Scholes vega) at every σ > 0. -/
theorem hasDerivAt_call_sigma (σ S K T r : ℝ)
    (hσ : 0 < σ) (hS : 0 < S) (hK : 0 < K) (hT : 0 < T) :
    HasDerivAt (fun x => bs_call x S K T r)
      (S * normPdf (bs_d1 σ S K T r) * Real.sqrt T) σ := by
  have hst : (0 : ℝ) < Real.sqrt T := Real.sqrt_pos.mpr hT
  have hane : σ * Real.sqrt T ≠ 0 := (mul_pos hσ hst).ne'
  set e := (σ * T * (σ * Real.sqrt T) -
      (Real.log (S / K) + (r + σ ^ 2 / 2) * T) * Real.sqrt T) /
      (σ * Real.sqrt T) ^ 2 with he
  have hu : HasDerivAt (fun x : ℝ => Real.log (S / K) + (r + x ^ 2 / 2) * T) (σ * T) σ := by
    have h1 : HasDerivAt (fun x : ℝ => x ^ 2) (2 * σ) σ := by
      simpa using hasDerivAt_pow 2 σ
    have h3 := (((h1.div_const 2).const_add r).mul_const T).const_add (Real.log (S / K))
    convert h3 using 1
    ring
  have hv : HasDerivAt (fun x : ℝ => x * Real.sqrt T) (Real.sqrt T) σ := by
    simpa using (hasDerivAt_id σ).mul_const (Real.sqrt T)
  have hd1 : HasDerivAt (fun x => bs_d1 x S K T r) e σ := hu.div hv hane
  have hd2 : HasDerivAt (fun x => bs_d2 x S K T r) (e - Real.sqrt T) σ := hd1.sub hv
  have hc1 := ((hasDerivAt_normCdf (bs_d1 σ S K T r)).comp σ hd1).mul_const S
  have hc2 := (((hasDerivAt_normCdf (bs_d2 σ S K T r)).comp σ hd2).mul_const K).mul_const
    (Real.exp (-r * T))
  have hcall := hc1.sub hc2
  have hid := normPdf_identity σ S K T r hσ hS hK hT
  convert hcall using 1
  linear_combination (e - Real.sqrt T) * hid

/-- The call premium is strictly increasing in σ on `(0, ∞)`. -/
theorem bs_call_strictMonoOn (S K T r : ℝ) (hS : 0 < S) (hK : 0 < K) (hT : 0 < T) :
    StrictMonoOn (fun σ => bs_call σ S K T r) (Ioi 0) := by
  apply strictMonoOn_of_deriv_pos (convex_Ioi 0)
  · intro x hx
    exact (hasDerivAt_call_sigma x S K T r hx hS hK hT).continuousAt.continuousWithinAt
  · intro x hx
    rw [interior_Ioi] at hx
    rw [(hasDerivAt_call_sigma x S K T r hx hS hK hT).deriv]
    have hst : (0 : ℝ) < Real.sqrt T := Real.sqrt_pos.mpr hT
    exact mul_pos (mul_pos hS (normPdf_pos _)) hst

/-! ## C6: the kernel price is strictly increasing in σ -/

/-- C6: for fixed S, K, T > 0, any rate and either option type, the kernel
price is strictly increasing in σ: `price(σ₁) < price(σ₂)` whenever
`0 < σ₁ < σ₂`. -/
theorem C6_price_strictMono_in_vol (S K T r : ℝ) (mode : ℤ) (σ₁ σ₂ : ℝ)
    (hS : 0 < S) (hK : 0 < K) (hT : 0 < T) (h1 : 0 < σ₁) (h12 : σ₁ < σ₂) :
    black_scholes σ₁ S K T r mode < black_scholes σ₂ S K T r mode := by
  have hc := bs_call_strictMonoOn S K T r hS hK hT (mem_Ioi.mpr h1)
    (mem_Ioi.mpr (h1.trans h12)) h12
  unfold black_scholes
  split_ifs with h
  · exact hc
  · linarith

/-- Witness for C6 at S = K = T = 1, r = 0, call mode, σ₁ = 1, σ₂ = 2. -/
theorem C6_witness :
    (0 : ℝ) < 1 ∧ (1 : ℝ) < 2 ∧
      black_scholes 1 1 1 1 0 0 < black_scholes 2 1 1 1 0 0 :=
  ⟨by norm_num, by norm_num,
    C6_price_strictMono_in_vol 1 1 1 0 0 1 2 (by norm_num) (by norm_num) (by norm_num)
      (by norm_num) (by norm_num)⟩

/-! ## Differentiability in the underlying price S -/

/-- The call premium is differentiable in the underlying price at every
S > 0. -/
theorem differentiableAt_call_S (σ S K T r : ℝ)
    (hσ : 0 < σ) (hS : 0 < S) (hK : 0 < K) (hT : 0 < T) :
    DifferentiableAt ℝ (fun s => bs_call σ s K T r) S := by
  have hq : HasDerivAt (fun s : ℝ => s / K) (1 / K) S := by
    simpa using (hasDerivAt_id S).div_const K
  have hlog : HasDerivAt (fun s : ℝ => Real.log (s / K)) ((S / K)⁻¹ * (1 / K)) S :=
    (Real.hasDerivAt_log (div_pos hS hK).ne').comp S hq
  have hd1 : HasDerivAt (fun s => bs_d1 σ s K T r)
      ((S / K)⁻¹ * (1 / K) / (σ * Real.sqrt T)) S :=
    (hlog.add_const ((r + σ ^ 2 / 2) * T)).div_const (σ * Real.sqrt T)
  have hd2 : HasDerivAt (fun s => bs_d2 σ s K T r)
      ((S / K)⁻¹ * (1 / K) / (σ * Real.sqrt T)) S :=
    hd1.sub_const (σ * Real.sqrt T)
  have h1 := ((hasDerivAt_normCdf (bs_d1 σ S K T r)).comp S hd1).mul (hasDerivAt_id S)
  have h2 := (((hasDerivAt_normCdf (bs_d2 σ S K T r)).comp S hd2).mul_const K).mul_const
    (Real.exp (-r * T))
  exact (h1.sub h2).differentiableAt

/-- The put delta is the call delta minus one, pointwise at every s > 0. -/
theorem bs_delta_put_eq (σ s K T r : ℝ)
    (hσ : 0 < σ) (hs : 0 < s) (hK : 0 < K) (hT : 0 < T) :
    bs_delta σ s K T r 1 = -1 + bs_delta σ s K T r 0 := by
  unfold bs_delta black_scholes
  simp only [if_neg (by norm_num : (1 : ℤ) ≠ 0), if_pos rfl]
  have hdiff : DifferentiableAt ℝ (fun u => bs_call σ u K T r) s :=
    differentiableAt_call_S σ s K T r hσ hs hK hT
  have hL : HasDerivAt (fun u : ℝ => K * Real.exp (-r * T) - u + bs_call σ u K T r)
      (-1 + deriv (fun u => bs_call σ u K T r) s) s :=
    ((hasDerivAt_id s).const_sub (K * Real.exp (-r * T))).add hdiff.hasDerivAt
  exact hL.deriv

/-! ## C9: gamma agrees between call and put -/

/-- C9: for σ, S, K, T > 0 and any rate, gamma — the second derivative of the
premium in the underlying price, `jax.jacfwd` applied twice — is identical in
call mode and in put mode. -/
theorem C9_gamma_call_eq_put (σ S K T r : ℝ)
    (hσ : 0 < σ) (hS : 0 < S) (hK : 0 < K) (hT : 0 < T) :
    bs_gamma σ S K T r 0 = bs_gamma σ S K T r 1 := by
  have heq : (fun s => bs_delta σ s K T r 1) =ᶠ[𝓝 S]
      fun s => -1 + bs_delta σ s K T r 0 := by
    filter_upwards [eventually_gt_nhds hS] with s hs
    exact bs_delta_put_eq σ s K T r hσ hs hK hT
  have h1 : bs_gamma σ S K T r 1 = deriv (fun s => -1 + bs_delta σ s K T r 0) S :=
    heq.deriv_eq
  rw [bs_gamma, ← deriv_const_add (-1 : ℝ), ← h1]

/-- Witness for C9 at σ = S = K = T = 1, r = 0. -/
theorem C9_witness :
    (0 : ℝ) < 1 ∧ bs_gamma 1 1 1 1 0 0 = bs_gamma 1 1 1 1 0 1 :=
  ⟨by norm_num,
    C9_gamma_call_eq_put 1 1 1 1 0 (by norm_num) (by norm_num) (by norm_num) (by norm_num)⟩

/-! ## A strict lower bound for the call premium -/

/-- Derivative of the auxiliary function
`g v = Φ(v + a/2) − e^(−v·a)·Φ(v − a/2) − (1 − e^(−v·a))/2`. -/
theorem G_hasDerivAt (a u : ℝ) :
    HasDerivAt (fun v => normCdf (v + a / 2) - Real.exp (-(v * a)) * normCdf (v - a / 2)
        - (1 - Real.exp (-(v * a))) / 2)
      (a * Real.exp (-(u * a)) * (normCdf (u - a / 2) - 1 / 2)) u := by
  have hid : HasDerivAt (fun v : ℝ => -(v * a)) (-a) u := by
    simpa using ((hasDerivAt_id u).mul_const a).neg
  have hexp : HasDerivAt (fun v : ℝ => Real.exp (-(v * a)))
      (Real.exp (-(u * a)) * -a) u := hid.exp
  have h1 : HasDerivAt (fun v : ℝ => normCdf (v + a / 2)) (normPdf (u + a / 2) * 1) u :=
    (hasDerivAt_normCdf (u + a / 2)).comp u ((hasDerivAt_id u).add_const (a / 2))
  have hc2 : HasDerivAt (fun v : ℝ => normCdf (v - a / 2)) (normPdf (u - a / 2) * 1) u :=
    (hasDerivAt_normCdf (u - a / 2)).comp u ((hasDerivAt_id u).sub_const (a / 2))
  have h2 := hexp.mul hc2
  have h3 := (hexp.const_sub 1).div_const 2
  have hG := (h1.sub h2).sub h3
  have hkey : Real.exp (-(u * a)) * normPdf (u - a / 2) = normPdf (u + a / 2) := by
    unfold normPdf
    rw [← mul_div_assoc, ← Real.exp_add]
    congr 2
    ring
  convert hG using 1
  linear_combination hkey

/-- The auxiliary function `g` is strictly positive for every `t` when
`a > 0`; the minimum over `t` is `Φ(a) − 1/2 > 0`, attained at `t = a/2`. -/
theorem G_pos (a : ℝ) (ha : 0 < a) (t : ℝ) :
    0 < normCdf (t + a / 2) - Real.exp (-(t * a)) * normCdf (t - a / 2)
      - (1 - Real.exp (-(t * a))) / 2 := by
  set g : ℝ → ℝ := fun v => normCdf (v + a / 2) - Real.exp (-(v * a)) * normCdf (v - a / 2)
    - (1 - Real.exp (-(v * a))) / 2 with hg
  show 0 < g t
  have hderiv : ∀ u, HasDerivAt g
      (a * Real.exp (-(u * a)) * (normCdf (u - a / 2) - 1 / 2)) u := G_hasDerivAt a
  have hcont : Continuous g := continuous_iff_continuousAt.mpr fun u => (hderiv u).continuousAt
  have hvalpos : 0 < g (a / 2) := by
    have hval : g (a / 2) = normCdf a - 1 / 2 := by
      simp only [hg]
      rw [show a / 2 + a / 2 = a by ring, show a / 2 - a / 2 = 0 by ring, normCdf_zero]
      ring
    have hmono := normCdf_strictMono ha
    rw [normCdf_zero] at hmono
    linarith
  have hanti : StrictAntiOn g (Iic (a / 2)) := by
    apply strictAntiOn_of_deriv_neg (convex_Iic _) hcont.continuousOn
    intro u hu
    rw [interior_Iic] at hu
    rw [(hderiv u).deriv]
    have hΦ : normCdf (u - a / 2) < 1 / 2 := by
      have h0 : u - a / 2 < 0 := by
        have := mem_Iio.mp hu
        linarith
      have := normCdf_strictMono h0
      rw [normCdf_zero] at this
      linarith
    exact mul_neg_of_pos_of_neg (mul_pos ha (exp_pos _)) (by linarith)
  have hmono : StrictMonoOn g (Ici (a / 2)) := by
    apply strictMonoOn_of_deriv_pos (convex_Ici _) hcont.continuousOn
    intro u hu
    rw [interior_Ici] at hu
    rw [(hderiv u).deriv]
    have hΦ : 1 / 2 < normCdf (u - a / 2) := by
      have h0 : (0 : ℝ) < u - a / 2 := by
        have := mem_Ioi.mp hu
        linarith
      have := normCdf_strictMono h0
      rw [normCdf_zero] at this
      linarith
    exact mul_pos (mul_pos ha (exp_pos _)) (by linarith)
  rcases lt_trichotomy t (a / 2) with h | h | h
  · exact hvalpos.trans (hanti (mem_Iic.mpr h.le) (mem_Iic.mpr le_rfl) h)
  · rw [h]
    exact hvalpos
  · exact hvalpos.trans (hmono (mem_Ici.mpr le_rfl) (mem_Ici.mpr h.le) h)

/-- Strict lower bound: the call premium strictly exceeds
`Φ(0)·(S − K·e^(−rT))` — the junk value the kernel returns at σ = 0 — for
every σ > 0. -/
theorem bs_call_gt (σ S K T r : ℝ)
    (hσ : 0 < σ) (hS : 0 < S) (hK : 0 < K) (hT : 0 < T) :
    normCdf 0 * (S - K * Real.exp (-r * T)) < bs_call σ S K T r := by
  have hst : (0 : ℝ) < Real.sqrt T := Real.sqrt_pos.mpr hT
  have ha : (0 : ℝ) < σ * Real.sqrt T := mul_pos hσ hst
  have hsq : Real.sqrt T ^ 2 = T := Real.sq_sqrt hT.le
  have hd1a : bs_d1 σ S K T r * (σ * Real.sqrt T) =
      Real.log (S / K) + (r + σ ^ 2 / 2) * T :=
    div_mul_cancel₀ _ (ne_of_gt ha)
  set a := σ * Real.sqrt T with hadef
  set t := bs_d1 σ S K T r - a / 2 with htdef
  have hd1 : bs_d1 σ S K T r = t + a / 2 := by
    rw [htdef]
    ring
  have hd2 : bs_d2 σ S K T r = t - a / 2 := by
    unfold bs_d2
    rw [htdef]
    ring
  have hta : -(t * a) = -Real.log (S / K) - r * T := by
    rw [htdef]
    linear_combination (-1 : ℝ) * hd1a + (σ ^ 2 / 2) * hsq
  have hKe : K * Real.exp (-r * T) = S * Real.exp (-(t * a)) := by
    rw [hta, sub_eq_add_neg, Real.exp_add, Real.exp_neg (Real.log (S / K)),
      Real.exp_log (div_pos hS hK)]
    rw [show Real.exp (-(r * T)) = Real.exp (-r * T) by ring_nf]
    field_simp
  have hG := G_pos a ha t
  unfold bs_call
  rw [hd1, hd2, normCdf_zero]
  have h2 : normCdf (t - a / 2) * K * Real.exp (-r * T) =
      normCdf (t - a / 2) * (S * Real.exp (-(t * a))) := by
    rw [mul_assoc, hKe]
  rw [h2, hKe]
  nlinarith [mul_pos hS hG]

/-- Simple upper bound: the call premium never exceeds the underlying price. -/
theorem bs_call_le (σ S K T r : ℝ) (hS : 0 ≤ S) (hK : 0 ≤ K) :
    bs_call σ S K T r ≤ S := by
  unfold bs_call
  have h1 : normCdf (bs_d1 σ S K T r) * S ≤ S :=
    mul_le_of_le_one_left hS (normCdf_le_one _)
  have h2 : 0 ≤ normCdf (bs_d2 σ S K T r) * K * Real.exp (-r * T) :=
    mul_nonneg (mul_nonneg (normCdf_nonneg _) hK) (Real.exp_pos _).le
  linarith

/-! ## C7: the implied-volatility round trip -/

/-- The pricing kernel's mode only shifts the premium by a constant, so
objective differences are mode-independent. -/
theorem black_scholes_sub_mode (x y S K T r : ℝ) (mode : ℤ) :
    black_scholes x S K T r mode - black_scholes y S K T r mode =
      bs_call x S K T r - bs_call y S K T r := by
  unfold black_scholes
  split_ifs with h
  · rfl
  · ring

/-- The junk value the kernel's call branch takes at σ = 0 (division by zero
gives `d1 = d2 = 0` under Lean's convention). -/
theorem bs_call_zero (S K T r : ℝ) :
    bs_call 0 S K T r = normCdf 0 * (S - K * Real.exp (-r * T)) := by
  simp [bs_call, bs_d1, bs_d2]
  ring

/-- Rounding to five decimal places moves a value by at most `1/200000`. -/
theorem round5_close (x : ℝ) : |round5 x - x| ≤ 1 / 200000 := by
  unfold round5
  have h : |(round (x * 100000) : ℝ) - x * 100000| ≤ 1 / 2 := by
    rw [abs_sub_comm]
    exact abs_sub_round _
  have hkey : (round (x * 100000) : ℝ) / 100000 - x =
      ((round (x * 100000) : ℝ) - x * 100000) / 100000 := by
    ring
  rw [hkey, abs_div, abs_of_pos (by norm_num : (0:ℝ) < 100000)]
  rw [div_le_iff₀ (by norm_num : (0:ℝ) < 100000)]
  linarith

/-- C7: for σ ∈ (0, 5), T > 0.1, S, K > 0, any rate and either option type,
the solver run on the kernel's own price succeeds and returns a value within
`1e-4` of σ. -/
theorem C7_round_trip (σ S K T r : ℝ) (mode : ℤ)
    (hσ0 : 0 < σ) (hσ5 : σ < 5) (hS : 0 < S) (hK : 0 < K) (hT : 1 / 10 < T) :
    ∃ v, implied_vol (black_scholes σ S K T r mode) S K T r mode = .ok v ∧
      |v - σ| < 1 / 10000 := by
  have hT0 : (0 : ℝ) < T := lt_trans (by norm_num) hT
  set P := black_scholes σ S K T r mode with hP
  set f : ℝ → ℝ := fun x => black_scholes x S K T r mode - P with hf
  have hfs : ∀ x, f x = bs_call x S K T r - bs_call σ S K T r := fun x =>
    black_scholes_sub_mode x σ S K T r mode
  have hf0 : f 0 < 0 := by
    rw [hfs 0, bs_call_zero]
    have := bs_call_gt σ S K T r hσ0 hS hK hT0
    linarith
  have hf10 : 0 < f 10 := by
    rw [hfs 10]
    have := bs_call_strictMonoOn S K T r hS hK hT0 (mem_Ioi.mpr hσ0)
      (mem_Ioi.mpr (by norm_num : (0:ℝ) < 10)) (by linarith)
    linarith
  have hnosign : ¬(0 < f 0 * f 10) := by
    nlinarith
  have hroot : ∃ x, x ∈ Icc (0 : ℝ) 10 ∧ f x = 0 :=
    ⟨σ, ⟨hσ0.le, by linarith⟩, by rw [hfs]; ring⟩
  have hb : brentq f 0 10 = .ok hroot.choose := by
    unfold brentq
    rw [if_neg hnosign, dif_pos hroot]
  have himp : implied_vol P S K T r mode = .ok (round5 hroot.choose) := by
    have hiv : implied_vol P S K T r mode = (brentq f 0 10).map round5 := rfl
    rw [hiv, hb]
    rfl
  have hchoose := hroot.choose_spec
  have hx0 : hroot.choose ≠ 0 := by
    intro h0
    have h := hchoose.2
    rw [h0] at h
    linarith
  have hxpos : 0 < hroot.choose := lt_of_le_of_ne hchoose.1.1 (Ne.symm hx0)
  have hxeq : hroot.choose = σ := by
    have h := hfs hroot.choose
    rw [hchoose.2] at h
    have h1 : bs_call hroot.choose S K T r = bs_call σ S K T r := by
      linarith
    exact (bs_call_strictMonoOn S K T r hS hK hT0).injOn
      (mem_Ioi.mpr hxpos) (mem_Ioi.mpr hσ0) h1
  refine ⟨round5 σ, ?_, ?_⟩
  · rw [himp, hxeq]
  · have := round5_close σ
    calc |round5 σ - σ| ≤ 1 / 200000 := this
      _ < 1 / 10000 := by norm_num

/-- Witness for C7 at σ = 1, S = K = T = 1, r = 0, call mode. -/
theorem C7_witness :
    (0 : ℝ) < 1 ∧ (1 : ℝ) < 5 ∧ (1 / 10 : ℝ) < 1 ∧
      ∃ v, implied_vol (black_scholes 1 1 1 1 0 0) 1 1 1 0 0 = .ok v ∧
        |v - 1| < 1 / 10000 :=
  ⟨by norm_num, by norm_num, by norm_num,
    C7_round_trip 1 1 1 1 0 0 (by norm_num) (by norm_num) (by norm_num) (by norm_num)
      (by norm_num)⟩

/-! ## C4: the solver fails without a sign change on the bracket -/

/-- C4: whenever the objective `price(σ) − P` has the same strict sign at
both ends of the bracket `[0, 10]`, the solver surfaces the bracketing error
instead of extrapolating a value. -/
theorem C4_no_sign_change_fails (P S K T r : ℝ) (mode : ℤ)
    (h : 0 < (black_scholes 0 S K T r mode - P) * (black_scholes 10 S K T r mode - P)) :
    implied_vol P S K T r mode = .error .noSignChange := by
  have hb : brentq (fun σ => black_scholes σ S K T r mode - P) 0 10 =
      .error .noSignChange := by
    simp only [brentq]
    rw [if_pos h]
  have hiv : implied_vol P S K T r mode =
      (brentq (fun σ => black_scholes σ S K T r mode - P) 0 10).map round5 := rfl
  rw [hiv, hb]
  rfl

/-- Witness for C4 at the spec's failure scenario
`P = 1000, S = K = 100, T = 1, r = 0.05`, call mode: the price 1000 exceeds
every achievable premium on the bracket, so the objective is negative at both
endpoints and the solver reports the bracketing failure. -/
theorem C4_witness :
    0 < (black_scholes 0 100 100 1 (1/20) 0 - 1000) *
        (black_scholes 10 100 100 1 (1/20) 0 - 1000) ∧
      implied_vol 1000 100 100 1 (1/20) 0 = .error .noSignChange := by
  have h0 : black_scholes 0 100 100 1 (1/20) 0 =
      normCdf 0 * (100 - 100 * Real.exp (-(1/20) * 1)) := by
    rw [show black_scholes 0 100 100 1 (1/20) 0 = bs_call 0 100 100 1 (1/20) from
      if_pos rfl, bs_call_zero]
  have h10 : black_scholes 10 100 100 1 (1/20) 0 = bs_call 10 100 100 1 (1/20) :=
    if_pos rfl
  have hle := bs_call_le 10 100 100 1 (1/20) (by norm_num) (by norm_num)
  have hexp0 : 0 < Real.exp (-(1/20) * 1) := Real.exp_pos _
  have hexp1 : Real.exp (-(1/20) * 1) < 1 := by
    rw [Real.exp_lt_one_iff]
    norm_num
  have hcond : 0 < (black_scholes 0 100 100 1 (1/20) 0 - 1000) *
      (black_scholes 10 100 100 1 (1/20) 0 - 1000) := by
    rw [h0, h10, normCdf_zero]
    nlinarith
  exact ⟨hcond, C4_no_sign_change_fails 1000 100 100 1 (1/20) 0 hcond⟩

/-! ## C5: a successful solve returns a five-decimal rounding -/

/-- C5: whenever `implied_vol` succeeds, the returned σ is `round(·, 5)` of
the root found by the solver, hence an integer multiple of `10⁻⁵`. -/
theorem C5_result_is_rounded (P S K T r : ℝ) (mode : ℤ) (σ : ℝ)
    (h : implied_vol P S K T r mode = .ok σ) :
    ∃ k : ℤ, σ = k / 100000 := by
  unfold implied_vol at h
  cases hb : brentq (fun x => black_scholes x S K T r mode - P) 0 10 with
  | error e =>
    rw [hb] at h
    simp [Except.map] at h
  | ok x =>
    rw [hb] at h
    simp only [Except.map, Except.ok.injEq] at h
    exact ⟨round (x * 100000), h.symm⟩

/-- Witness for C5: a successful run (the observed price is the kernel price
at σ = 10, making 10 itself a root, with no strict sign mismatch at the
endpoints) whose result is a multiple of `10⁻⁵`. -/
theorem C5_witness :
    ∃ σ, implied_vol (black_scholes 10 1 1 1 0 0) 1 1 1 0 0 = .ok σ ∧
      ∃ k : ℤ, σ = k / 100000 := by
  set f : ℝ → ℝ := fun x => black_scholes x 1 1 1 0 0 - black_scholes 10 1 1 1 0 0 with hf
  have hf10 : f 10 = 0 := sub_self _
  have hnosign : ¬(0 < f 0 * f 10) := by
    rw [hf10, mul_zero]
    exact lt_irrefl 0
  have hroot : ∃ x, x ∈ Icc (0 : ℝ) 10 ∧ f x = 0 :=
    ⟨10, ⟨by norm_num, le_rfl⟩, hf10⟩
  have hb : brentq f 0 10 = .ok hroot.choose := by
    unfold brentq
    rw [if_neg hnosign, dif_pos hroot]
  have himp : implied_vol (black_scholes 10 1 1 1 0 0) 1 1 1 0 0 =
      .ok (round5 hroot.choose) := by
    have hiv : implied_vol (black_scholes 10 1 1 1 0 0) 1 1 1 0 0 =
        (brentq f 0 10).map round5 := rfl
    rw [hiv, hb]
    rfl
  exact ⟨_, himp, C5_result_is_rounded _ 1 1 1 0 0 _ himp⟩

/-! ## Numeric bounds for the CDF, `√(2π)` and `e^(1/20)` -/

theorem sqrt_two_pi_lt : Real.sqrt (2 * π) < 2.5066285 := by
  apply (Real.sqrt_lt' (by norm_num)).mpr
  nlinarith [Real.pi_lt_d6]

theorem lt_sqrt_two_pi : (2.506628 : ℝ) < Real.sqrt (2 * π) := by
  apply (Real.lt_sqrt (by norm_num)).mpr
  nlinarith [Real.pi_gt_d6]

theorem exp_twentieth_pow : Real.exp (1 / 20) ^ 20 = Real.exp 1 := by
  rw [← Real.exp_nat_mul]
  norm_num

theorem exp_twentieth_gt : (1.0512710 : ℝ) < Real.exp (1 / 20) := by
  have hpow : (1.0512710 : ℝ) ^ 20 < Real.exp (1 / 20) ^ 20 := by
    rw [exp_twentieth_pow]
    calc (1.0512710 : ℝ) ^ 20 < 2.7182818283 := by norm_num
      _ < Real.exp 1 := Real.exp_one_gt_d9
  exact lt_of_pow_lt_pow_left₀ 20 (Real.exp_pos _).le hpow

theorem exp_twentieth_lt : Real.exp (1 / 20) < 1.0512712 := by
  have hpow : Real.exp (1 / 20) ^ 20 < (1.0512712 : ℝ) ^ 20 := by
    rw [exp_twentieth_pow]
    calc Real.exp 1 < 2.7182818286 := Real.exp_one_lt_d9
      _ < (1.0512712 : ℝ) ^ 20 := by norm_num
  exact lt_of_pow_lt_pow_left₀ 20 (by norm_num) hpow

/-- Degree-4 Taylor bounds for the Gaussian integrand on `|t| ≤ 1`. -/
theorem gauss_integrand_bounds (t : ℝ) (h : |t| ≤ 1) :
    1 - t ^ 2 / 2 + t ^ 4 / 8 - t ^ 6 / 48 - 5 * t ^ 8 / 1536 ≤ Real.exp (-t ^ 2 / 2) ∧
      Real.exp (-t ^ 2 / 2) ≤ 1 - t ^ 2 / 2 + t ^ 4 / 8 - t ^ 6 / 48 + 5 * t ^ 8 / 1536 := by
  have ht2 : t ^ 2 ≤ 1 := by
    have := abs_le.mp h
    nlinarith
  have ht0 : (0 : ℝ) ≤ t ^ 2 := sq_nonneg t
  have hx : |(-t ^ 2 / 2 : ℝ)| ≤ 1 := by
    rw [abs_of_nonpos (by linarith)]
    linarith
  have habs4 : |(-t ^ 2 / 2 : ℝ)| ^ 4 = t ^ 8 / 16 := by
    rw [abs_of_nonpos (by linarith)]
    ring
  have hsum : ∑ m ∈ Finset.range 4, (-t ^ 2 / 2) ^ m / (m.factorial : ℝ) =
      1 - t ^ 2 / 2 + t ^ 4 / 8 - t ^ 6 / 48 := by
    simp [Finset.sum_range_succ, Nat.factorial]
    ring
  have hb := Real.exp_bound hx (by norm_num : 0 < 4)
  rw [hsum] at hb
  have h5 : |Real.exp (-t ^ 2 / 2) - (1 - t ^ 2 / 2 + t ^ 4 / 8 - t ^ 6 / 48)| ≤
      5 * t ^ 8 / 1536 := by
    refine le_trans hb ?_
    rw [habs4]
    norm_num [Nat.factorial]
    linarith
  have hpair := abs_le.mp h5
  constructor
  · linarith [hpair.1]
  · linarith [hpair.2]

/-- Antiderivative of the degree-8 polynomial bound. -/
theorem poly_primitive (c : ℝ) (t : ℝ) :
    HasDerivAt (fun u : ℝ => u - u ^ 3 / 6 + u ^ 5 / 40 - u ^ 7 / 336 + c * u ^ 9 / 9)
      (1 - t ^ 2 / 2 + t ^ 4 / 8 - t ^ 6 / 48 + c * t ^ 8) t := by
  have h1 := hasDerivAt_id t
  have h3 := (hasDerivAt_pow 3 t).div_const 6
  have h5 := (hasDerivAt_pow 5 t).div_const 40
  have h7 := (hasDerivAt_pow 7 t).div_const 336
  have h9 := ((hasDerivAt_pow 9 t).const_mul c).div_const 9
  have h := (((h1.sub h3).add h5).sub h7).add h9
  convert h using 1
  norm_num
  ring

theorem poly_integral (c x : ℝ) :
    ∫ t in (0 : ℝ)..x, (1 - t ^ 2 / 2 + t ^ 4 / 8 - t ^ 6 / 48 + c * t ^ 8) =
      x - x ^ 3 / 6 + x ^ 5 / 40 - x ^ 7 / 336 + c * x ^ 9 / 9 := by
  rw [intervalIntegral.integral_eq_sub_of_hasDerivAt (fun t _ => poly_primitive c t)
    ((by fun_prop : Continuous fun t : ℝ =>
      1 - t ^ 2 / 2 + t ^ 4 / 8 - t ^ 6 / 48 + c * t ^ 8).intervalIntegrable 0 x)]
  norm_num

/-- Two-sided polynomial bounds for `∫₀ˣ e^(−t²/2) dt` on `0 ≤ x ≤ 1`. -/
theorem gauss_integral_bounds (x : ℝ) (h0 : 0 ≤ x) (h1 : x ≤ 1) :
    x - x ^ 3 / 6 + x ^ 5 / 40 - x ^ 7 / 336 - 5 * x ^ 9 / 13824 ≤
        (∫ t in (0 : ℝ)..x, Real.exp (-t ^ 2 / 2)) ∧
      (∫ t in (0 : ℝ)..x, Real.exp (-t ^ 2 / 2)) ≤
        x - x ^ 3 / 6 + x ^ 5 / 40 - x ^ 7 / 336 + 5 * x ^ 9 / 13824 := by
  have hexpint : IntervalIntegrable (fun t => Real.exp (-t ^ 2 / 2)) volume 0 x :=
    Continuous.intervalIntegrable (by fun_prop) 0 x
  have habs : ∀ t ∈ Icc (0 : ℝ) x, |t| ≤ 1 := by
    intro t ht
    rw [abs_of_nonneg ht.1]
    exact le_trans ht.2 h1
  constructor
  · have hle := intervalIntegral.integral_mono_on h0
      ((by fun_prop : Continuous fun t : ℝ =>
        1 - t ^ 2 / 2 + t ^ 4 / 8 - t ^ 6 / 48 + (-5 / 1536) * t ^ 8).intervalIntegrable 0 x)
      hexpint
      (fun t ht => by
        have := (gauss_integrand_bounds t (habs t ht)).1
        show 1 - t ^ 2 / 2 + t ^ 4 / 8 - t ^ 6 / 48 + (-5 / 1536) * t ^ 8 ≤
          Real.exp (-t ^ 2 / 2)
        linarith)
    rw [poly_integral] at hle
    linarith
  · have hle := intervalIntegral.integral_mono_on h0 hexpint
      ((by fun_prop : Continuous fun t : ℝ =>
        1 - t ^ 2 / 2 + t ^ 4 / 8 - t ^ 6 / 48 + (5 / 1536) * t ^ 8).intervalIntegrable 0 x)
      (fun t ht => by
        have := (gauss_integrand_bounds t (habs t ht)).2
        show Real.exp (-t ^ 2 / 2) ≤
          1 - t ^ 2 / 2 + t ^ 4 / 8 - t ^ 6 / 48 + (5 / 1536) * t ^ 8
        linarith)
    rw [poly_integral] at hle
    linarith

theorem normCdf_eq_integral (x : ℝ) :
    normCdf x = 1 / 2 + (∫ t in (0 : ℝ)..x, Real.exp (-t ^ 2 / 2)) / Real.sqrt (2 * π) := by
  have h := normCdf_sub 0 x
  rw [normCdf_zero] at h
  have h2 : ∫ t in (0 : ℝ)..x, normPdf t =
      (∫ t in (0 : ℝ)..x, Real.exp (-t ^ 2 / 2)) / Real.sqrt (2 * π) := by
    rw [← intervalIntegral.integral_div]
    rfl
  rw [h2] at h
  linarith

/-- Certified upper bound for the normal CDF at `x ∈ [0, 1]`. -/
theorem normCdf_le_of (x q : ℝ) (h0 : 0 ≤ x) (h1 : x ≤ 1)
    (hq : 1 / 2 + (x - x ^ 3 / 6 + x ^ 5 / 40 - x ^ 7 / 336 + 5 * x ^ 9 / 13824) /
      2.506628 ≤ q) :
    normCdf x ≤ q := by
  have hJ := gauss_integral_bounds x h0 h1
  have hJnn : 0 ≤ ∫ t in (0 : ℝ)..x, Real.exp (-t ^ 2 / 2) :=
    intervalIntegral.integral_nonneg h0 fun t _ => (Real.exp_pos _).le
  have hdiv : (∫ t in (0 : ℝ)..x, Real.exp (-t ^ 2 / 2)) / Real.sqrt (2 * π) ≤
      (x - x ^ 3 / 6 + x ^ 5 / 40 - x ^ 7 / 336 + 5 * x ^ 9 / 13824) / 2.506628 :=
    div_le_div₀ (le_trans hJnn hJ.2) hJ.2 (by norm_num) lt_sqrt_two_pi.le
  rw [normCdf_eq_integral]
  linarith

/-- Certified lower bound for the normal CDF at `x ∈ [0, 1]`. -/
theorem normCdf_ge_of (x p : ℝ) (h0 : 0 ≤ x) (h1 : x ≤ 1)
    (hpoly : 0 ≤ x - x ^ 3 / 6 + x ^ 5 / 40 - x ^ 7 / 336 - 5 * x ^ 9 / 13824)
    (hp : p ≤ 1 / 2 + (x - x ^ 3 / 6 + x ^ 5 / 40 - x ^ 7 / 336 - 5 * x ^ 9 / 13824) /
      2.5066285) :
    p ≤ normCdf x := by
  have hJ := gauss_integral_bounds x h0 h1
  have hdiv : (x - x ^ 3 / 6 + x ^ 5 / 40 - x ^ 7 / 336 - 5 * x ^ 9 / 13824) / 2.5066285 ≤
      (∫ t in (0 : ℝ)..x, Real.exp (-t ^ 2 / 2)) / Real.sqrt (2 * π) :=
    div_le_div₀ (le_trans hpoly hJ.1) hJ.1 sqrt_two_pi_pos sqrt_two_pi_lt.le
  rw [normCdf_eq_integral]
  linarith

/-! ## Evaluation of the kernel at the spec's concrete scenario -/

theorem exp_inv_lo : (1.0512712 : ℝ)⁻¹ < (Real.exp (1 / 20))⁻¹ :=
  (inv_lt_inv₀ (by norm_num) (Real.exp_pos _)).mpr exp_twentieth_lt

theorem exp_inv_hi : (Real.exp (1 / 20))⁻¹ < (1.0512710 : ℝ)⁻¹ :=
  (inv_lt_inv₀ (Real.exp_pos _) (by norm_num)).mpr exp_twentieth_gt

theorem bs_d1_atm (σ : ℝ) : bs_d1 σ 100 100 1 (1 / 20) = (1 / 20 + σ ^ 2 / 2) / σ := by
  unfold bs_d1
  norm_num [Real.sqrt_one, Real.log_one]

theorem bs_d2_atm (σ : ℝ) :
    bs_d2 σ 100 100 1 (1 / 20) = (1 / 20 + σ ^ 2 / 2) / σ - σ := by
  unfold bs_d2
  rw [bs_d1_atm]
  norm_num [Real.sqrt_one]

theorem bs_call_atm (σ : ℝ) : bs_call σ 100 100 1 (1 / 20) =
    normCdf (bs_d1 σ 100 100 1 (1 / 20)) * 100 -
      normCdf (bs_d2 σ 100 100 1 (1 / 20)) * 100 * (Real.exp (1 / 20))⁻¹ := by
  unfold bs_call
  rw [show (-(1 / 20) * 1 : ℝ) = -(1 / 20) by norm_num, Real.exp_neg]

/-- Certified enclosure of the call premium at σ = 0.2 (true value
10.45058…). -/
theorem call_atm_bounds :
    10.4500 < bs_call (1 / 5) 100 100 1 (1 / 20) ∧
      bs_call (1 / 5) 100 100 1 (1 / 20) < 10.4512 := by
  have hd1 : bs_d1 (1 / 5) 100 100 1 (1 / 20) = 7 / 20 := by
    rw [bs_d1_atm]
    norm_num
  have hd2 : bs_d2 (1 / 5) 100 100 1 (1 / 20) = 3 / 20 := by
    rw [bs_d2_atm]
    norm_num
  have h1lo : (0.6368306 : ℝ) ≤ normCdf (7 / 20) :=
    normCdf_ge_of _ _ (by norm_num) (by norm_num) (by norm_num) (by norm_num)
  have h1hi : normCdf (7 / 20) ≤ 0.6368307 :=
    normCdf_le_of _ _ (by norm_num) (by norm_num) (by norm_num)
  have h2lo : (0.5596176 : ℝ) ≤ normCdf (3 / 20) :=
    normCdf_ge_of _ _ (by norm_num) (by norm_num) (by norm_num) (by norm_num)
  have h2hi : normCdf (3 / 20) ≤ 0.5596177 :=
    normCdf_le_of _ _ (by norm_num) (by norm_num) (by norm_num)
  have hprod_hi : normCdf (3 / 20) * (Real.exp (1 / 20))⁻¹ ≤
      0.5596177 * (1.0512710 : ℝ)⁻¹ :=
    mul_le_mul h2hi exp_inv_hi.le (by positivity) (by norm_num)
  have hprod_lo : (0.5596176 : ℝ) * (1.0512712 : ℝ)⁻¹ ≤
      normCdf (3 / 20) * (Real.exp (1 / 20))⁻¹ :=
    mul_le_mul h2lo exp_inv_lo.le (by norm_num) (normCdf_nonneg _)
  rw [bs_call_atm, hd1, hd2]
  constructor
  · nlinarith [hprod_hi, h1lo]
  · nlinarith [hprod_lo, h1hi]

/-- The call premium just below σ = 0.2 is strictly below the observed price
10.4506. -/
theorem call_sm_lt : bs_call (39999 / 200000) 100 100 1 (1 / 20) < 10.4506 := by
  have hd1 := bs_d1_atm (39999 / 200000)
  have hd2 := bs_d2_atm (39999 / 200000)
  have h1hi : normCdf ((1 / 20 + (39999 / 200000 : ℝ) ^ 2 / 2) / (39999 / 200000)) ≤
      0.6368321 :=
    normCdf_le_of _ _ (by norm_num) (by norm_num) (by norm_num)
  have h2lo : (0.5596211 : ℝ) ≤
      normCdf ((1 / 20 + (39999 / 200000 : ℝ) ^ 2 / 2) / (39999 / 200000) -
        39999 / 200000) :=
    normCdf_ge_of _ _ (by norm_num) (by norm_num) (by norm_num) (by norm_num)
  have hprod_lo : (0.5596211 : ℝ) * (1.0512712 : ℝ)⁻¹ ≤
      normCdf ((1 / 20 + (39999 / 200000 : ℝ) ^ 2 / 2) / (39999 / 200000) -
        39999 / 200000) * (Real.exp (1 / 20))⁻¹ :=
    mul_le_mul h2lo exp_inv_lo.le (by norm_num) (normCdf_nonneg _)
  rw [bs_call_atm, hd1, hd2]
  nlinarith [hprod_lo, h1hi]

/-- The call premium just above σ = 0.2 is strictly above the observed price
10.4506. -/
theorem call_sp_gt : 10.4506 < bs_call (40001 / 200000) 100 100 1 (1 / 20) := by
  have hd1 := bs_d1_atm (40001 / 200000)
  have hd2 := bs_d2_atm (40001 / 200000)
  have h1lo : (0.6368292 : ℝ) ≤
      normCdf ((1 / 20 + (40001 / 200000 : ℝ) ^ 2 / 2) / (40001 / 200000)) :=
    normCdf_ge_of _ _ (by norm_num) (by norm_num) (by norm_num) (by norm_num)
  have h2hi : normCdf ((1 / 20 + (40001 / 200000 : ℝ) ^ 2 / 2) / (40001 / 200000) -
      40001 / 200000) ≤ 0.5596143 :=
    normCdf_le_of _ _ (by norm_num) (by norm_num) (by norm_num)
  have hprod_hi : normCdf ((1 / 20 + (40001 / 200000 : ℝ) ^ 2 / 2) / (40001 / 200000) -
      40001 / 200000) * (Real.exp (1 / 20))⁻¹ ≤ 0.5596143 * (1.0512710 : ℝ)⁻¹ :=
    mul_le_mul h2hi exp_inv_hi.le (by positivity) (by norm_num)
  rw [bs_call_atm, hd1, hd2]
  nlinarith [hprod_hi, h1lo]

/-- The call premium at the top of the bracket exceeds the observed price. -/
theorem call_ten_gt : 10.4506 < bs_call 10 100 100 1 (1 / 20) := by
  have hd1 : bs_d1 10 100 100 1 (1 / 20) = 1001 / 200 := by
    rw [bs_d1_atm]
    norm_num
  have hd2 : bs_d2 10 100 100 1 (1 / 20) = -999 / 200 := by
    rw [bs_d2_atm]
    norm_num
  have h1 : (0.8410 : ℝ) ≤ normCdf 1 :=
    normCdf_ge_of _ _ (by norm_num) (by norm_num) (by norm_num) (by norm_num)
  have h1' : (0.8410 : ℝ) ≤ normCdf (1001 / 200) :=
    le_trans h1 (normCdf_mono (by norm_num))
  have h2 : normCdf (-999 / 200 : ℝ) ≤ 1 / 2 := by
    have h := normCdf_mono (show (-999 / 200 : ℝ) ≤ 0 by norm_num)
    rw [normCdf_zero] at h
    exact h
  have hprod_hi : normCdf (-999 / 200 : ℝ) * (Real.exp (1 / 20))⁻¹ ≤
      1 / 2 * (1.0512710 : ℝ)⁻¹ :=
    mul_le_mul h2 exp_inv_hi.le (by positivity) (by norm_num)
  rw [bs_call_atm, hd1, hd2]
  nlinarith [hprod_hi, h1']

/-- The junk kernel value at σ = 0 lies below the observed price. -/
theorem call_zero_lt_atm : bs_call 0 100 100 1 (1 / 20) < 10.4506 := by
  have h := bs_call_zero 100 100 1 (1 / 20)
  rw [normCdf_zero, show (-(1 / 20) * 1 : ℝ) = -(1 / 20) by norm_num, Real.exp_neg] at h
  rw [h]
  have h1 := exp_inv_lo
  have h2 := exp_inv_hi
  nlinarith

/-! ## C8: the spec's concrete numeric scenario -/

/-- C8: at σ = 0.20, S = K = 100, T = 1, r = 0.05 the kernel's call premium
is 10.4506 and its put premium 5.5735 to within 10⁻³, and the solver run on
the quoted price 10.4506 succeeds and returns exactly 0.20000 (the unique
root lies within 5·10⁻⁶ of 0.2, so the five-decimal rounding is exact). -/
theorem C8_concrete_scenario :
    |black_scholes (1 / 5) 100 100 1 (1 / 20) 0 - 10.4506| < 1 / 1000 ∧
      |black_scholes (1 / 5) 100 100 1 (1 / 20) 1 - 5.5735| < 1 / 1000 ∧
      implied_vol 10.4506 100 100 1 (1 / 20) 0 = .ok (1 / 5) := by
  have hcall := call_atm_bounds
  have hinvlo := exp_inv_lo
  have hinvhi := exp_inv_hi
  have hc0 : black_scholes (1 / 5) 100 100 1 (1 / 20) 0 =
      bs_call (1 / 5) 100 100 1 (1 / 20) := if_pos rfl
  refine ⟨?_, ?_, ?_⟩
  · rw [hc0, abs_lt]
    constructor
    · linarith [hcall.1]
    · linarith [hcall.2]
  · have hc1 : black_scholes (1 / 5) 100 100 1 (1 / 20) 1 =
        100 * Real.exp (-(1 / 20) * 1) - 100 + bs_call (1 / 5) 100 100 1 (1 / 20) :=
      if_neg (by norm_num)
    rw [hc1, show (-(1 / 20) * 1 : ℝ) = -(1 / 20) by norm_num, Real.exp_neg, abs_lt]
    constructor
    · linarith [hcall.1]
    · linarith [hcall.2]
  · set f : ℝ → ℝ := fun x => black_scholes x 100 100 1 (1 / 20) 0 - 10.4506 with hfdef
    have hfs : ∀ x, f x = bs_call x 100 100 1 (1 / 20) - 10.4506 := fun x => by
      show black_scholes x 100 100 1 (1 / 20) 0 - 10.4506 = _
      rw [show black_scholes x 100 100 1 (1 / 20) 0 = bs_call x 100 100 1 (1 / 20) from
        if_pos rfl]
    have hf0 : f 0 < 0 := by
      rw [hfs 0]
      linarith [call_zero_lt_atm]
    have hf10 : 0 < f 10 := by
      rw [hfs 10]
      linarith [call_ten_gt]
    have hfm : f (39999 / 200000) < 0 := by
      rw [hfs]
      linarith [call_sm_lt]
    have hfp : 0 < f (40001 / 200000) := by
      rw [hfs]
      linarith [call_sp_gt]
    have hnosign : ¬(0 < f 0 * f 10) := by
      nlinarith
    have hmono := bs_call_strictMonoOn 100 100 1 (1 / 20)
      (by norm_num) (by norm_num) (by norm_num)
    have hconts : ContinuousOn f (Icc (39999 / 200000 : ℝ) (40001 / 200000)) := by
      have hcg : ContinuousOn (fun x => bs_call x 100 100 1 (1 / 20) - 10.4506)
          (Icc (39999 / 200000 : ℝ) (40001 / 200000)) := by
        intro x hx
        have hx0 : (0 : ℝ) < x := lt_of_lt_of_le (by norm_num) hx.1
        exact ((hasDerivAt_call_sigma x 100 100 1 (1 / 20) hx0 (by norm_num) (by norm_num)
          (by norm_num)).continuousAt.sub continuousAt_const).continuousWithinAt
      have hfg : f = fun x => bs_call x 100 100 1 (1 / 20) - 10.4506 := funext hfs
      rw [hfg]
      exact hcg
    have hivt := intermediate_value_Icc
      (by norm_num : (39999 / 200000 : ℝ) ≤ 40001 / 200000) hconts
    have h0mem : (0 : ℝ) ∈ Icc (f (39999 / 200000)) (f (40001 / 200000)) :=
      ⟨hfm.le, hfp.le⟩
    obtain ⟨y, hy, hfy⟩ := hivt h0mem
    have hroot : ∃ x, x ∈ Icc (0 : ℝ) 10 ∧ f x = 0 := by
      refine ⟨y, ⟨?_, ?_⟩, hfy⟩
      · exact le_trans (by norm_num) hy.1
      · exact le_trans hy.2 (by norm_num)
    have hb : brentq f 0 10 = .ok hroot.choose := by
      unfold brentq
      rw [if_neg hnosign, dif_pos hroot]
    have himp : implied_vol 10.4506 100 100 1 (1 / 20) 0 = .ok (round5 hroot.choose) := by
      have hiv : implied_vol 10.4506 100 100 1 (1 / 20) 0 = (brentq f 0 10).map round5 := rfl
      rw [hiv, hb]
      rfl
    have hspec := hroot.choose_spec
    have hxpos : 0 < hroot.choose := by
      rcases eq_or_lt_of_le hspec.1.1 with he | hlt
      · exfalso
        have := hspec.2
        rw [← he] at this
        linarith
      · exact hlt
    have hcx : bs_call hroot.choose 100 100 1 (1 / 20) = 10.4506 := by
      have h := hfs hroot.choose
      rw [hspec.2] at h
      linarith
    have hgt : (39999 / 200000 : ℝ) < hroot.choose := by
      by_contra hle
      push_neg at hle
      rcases eq_or_lt_of_le hle with he | hlt
      · rw [he] at hcx
        linarith [call_sm_lt]
      · have h2 : bs_call hroot.choose 100 100 1 (1 / 20) <
            bs_call (39999 / 200000) 100 100 1 (1 / 20) :=
          hmono (mem_Ioi.mpr hxpos) (mem_Ioi.mpr (by norm_num : (0:ℝ) < 39999 / 200000)) hlt
        rw [hcx] at h2
        linarith [call_sm_lt]
    have hlt : hroot.choose < (40001 / 200000 : ℝ) := by
      by_contra hge
      push_neg at hge
      rcases eq_or_lt_of_le hge with he | hlt2
      · rw [← he] at hcx
        linarith [call_sp_gt]
      · have h2 : bs_call (40001 / 200000) 100 100 1 (1 / 20) <
            bs_call hroot.choose 100 100 1 (1 / 20) :=
          hmono (mem_Ioi.mpr (by norm_num : (0:ℝ) < 40001 / 200000))
            (mem_Ioi.mpr hxpos) hlt2
        rw [hcx] at h2
        linarith [call_sp_gt]
    have hround : round (hroot.choose * 100000) = 20000 := by
      rw [round_eq]
      apply Int.floor_eq_iff.mpr
      constructor
      · push_cast
        nlinarith
      · push_cast
        nlinarith
    have hr5 : round5 hroot.choose = 1 / 5 := by
      unfold round5
      rw [hround]
      norm_num
    rw [himp, hr5]

/-! ## C1: the call branch computes the Black-Scholes call formula -/

/-- C1: for σ, S, K, T > 0, the kernel in call mode (`mode = 0`) returns
`Φ(d1)·S − Φ(d2)·K·e^(−r·T)` with `d1 = (ln(S/K) + (r + σ²/2)·T)/(σ·√T)` and
`d2 = d1 − σ·√T`. -/
theorem C1_call_formula (σ S K T r : ℝ)
    (hσ : 0 < σ) (hS : 0 < S) (hK : 0 < K) (hT : 0 < T) :
    black_scholes σ S K T r 0 =
      normCdf ((Real.log (S / K) + (r + σ ^ 2 / 2) * T) / (σ * Real.sqrt T)) * S -
        normCdf ((Real.log (S / K) + (r + σ ^ 2 / 2) * T) / (σ * Real.sqrt T)
            - σ * Real.sqrt T) * K * Real.exp (-r * T) := by
  simp [black_scholes, bs_call, bs_d1, bs_d2]

/-- Witness for C1 at σ = S = K = T = 1, r = 0. -/
theorem C1_witness :
    (0 : ℝ) < 1 ∧
      black_scholes 1 1 1 1 0 0 =
        normCdf ((Real.log (1 / 1) + (0 + 1 ^ 2 / 2) * 1) / (1 * Real.sqrt 1)) * 1 -
          normCdf ((Real.log (1 / 1) + (0 + 1 ^ 2 / 2) * 1) / (1 * Real.sqrt 1)
              - 1 * Real.sqrt 1) * 1 * Real.exp (-0 * 1) :=
  ⟨by norm_num,
    C1_call_formula 1 1 1 1 0 (by norm_num) (by norm_num) (by norm_num) (by norm_num)⟩

/-! ## C2: exact put-call parity -/

/-- C2: for σ, S, K, T > 0, `call − put = S − K·e^(−r·T)` exactly, because the
put branch is `K·e^(−rT) − S + call` by construction. -/
theorem C2_put_call_parity (σ S K T r : ℝ)
    (hσ : 0 < σ) (hS : 0 < S) (hK : 0 < K) (hT : 0 < T) :
    black_scholes σ S K T r 0 - black_scholes σ S K T r 1 =
      S - K * Real.exp (-r * T) := by
  have h0 : black_scholes σ S K T r 0 = bs_call σ S K T r := if_pos rfl
  have h1 : black_scholes σ S K T r 1 =
      K * Real.exp (-r * T) - S + bs_call σ S K T r := if_neg (by norm_num)
  rw [h0, h1]
  ring

/-- Witness for C2 at σ = S = K = T = 1, r = 0. -/
theorem C2_witness :
    (0 : ℝ) < 1 ∧
      black_scholes 1 1 1 1 0 0 - black_scholes 1 1 1 1 0 1 =
        1 - 1 * Real.exp (-0 * 1) :=
  ⟨by norm_num,
    C2_put_call_parity 1 1 1 1 0 (by norm_num) (by norm_num) (by norm_num) (by norm_num)⟩

/-! ## C3: the kernel does not reject precondition violations -/

/-- C3 counterexample: the claim says a call violating the preconditions (here
`σ = 0`) surfaces a domain error instead of being evaluated; in fact the code
has no validation at all and evaluates anyway (`jax` produces junk values,
modelled by Lean's `x / 0 = 0`), returning the premium `0` at
`σ = 0, S = K = 1, T = 1, r = 0`. -/
theorem C3_counterexample : black_scholes 0 1 1 1 0 0 = 0 := by
  simp [black_scholes, bs_call, bs_d1, bs_d2]

/-- C3 amended: the kernel performs no precondition check; on the domain-error
input `σ = 0` it silently evaluates through the division by zero in `d1` and
returns a premium (here, with `S = K` and `r = 0`, the premium `0`) in either
mode, rather than surfacing an error. -/
theorem C3_amended_silent_evaluation (S T : ℝ) (mode : ℤ) :
    black_scholes 0 S S T 0 mode = 0 := by
  simp [black_scholes, bs_call, bs_d1, bs_d2]

/-! ## C10: every nonzero mode selects the put branch -/

/-- C10: for every `mode ≠ 0` — not only `mode = 1` — the kernel returns the
put premium `K·e^(−rT) − S + call`; the call branch requires `mode = 0`
exactly. -/
theorem C10_nonzero_mode_is_put (σ S K T r : ℝ) (mode : ℤ) (h : mode ≠ 0) :
    black_scholes σ S K T r mode =
      K * Real.exp (-r * T) - S + black_scholes σ S K T r 0 := by
  simp [black_scholes, h]

/-- Witness for C10 at `mode = 2`. -/
theorem C10_witness :
    (2 : ℤ) ≠ 0 ∧
      black_scholes 1 1 1 1 0 2 =
        1 * Real.exp (-0 * 1) - 1 + black_scholes 1 1 1 1 0 0 :=
  ⟨by norm_num, C10_nonzero_mode_is_put 1 1 1 1 0 2 (by norm_num)⟩

end Finale

end
